import Mathlib

/-!
Verification development for the tmsim-converter program (src/main.rs).

The program reads a line-oriented description of a Turing machine and
assembles a configuration value: transition rules, an alphabet and a tape.
Strings are modelled as `List Char`.  Rust operations that can panic
(slice indexing out of bounds, `Result::unwrap`) are modelled by `Option`
with `none` standing for a panic; `str::trim` trims the Unicode
White_Space characters, modelled exactly by `isWS`; `\d` of the regex
crate is modelled as the ASCII digits.
-/

/-- The Unicode White_Space property, the exact set of characters that
Rust's `char::is_whitespace` (used by `str::trim`) recognizes. -/
def isWS (c : Char) : Bool :=
  (0x09 ≤ c.toNat && c.toNat ≤ 0x0D) || c.toNat = 0x20 || c.toNat = 0x85 ||
  c.toNat = 0xA0 || c.toNat = 0x1680 ||
  (0x2000 ≤ c.toNat && c.toNat ≤ 0x200A) ||
  c.toNat = 0x2028 || c.toNat = 0x2029 || c.toNat = 0x202F ||
  c.toNat = 0x205F || c.toNat = 0x3000

/-- Model of `str::trim`: drop whitespace from both ends. -/
def trimList (l : List Char) : List Char :=
  ((l.dropWhile isWS).reverse.dropWhile isWS).reverse

/-- Model of `str::trim_end_matches c`: drop all trailing occurrences of `c`. -/
def rtrimMatches (c : Char) (l : List Char) : List Char :=
  (l.reverse.dropWhile (fun x => x = c)).reverse

/-- Splitting on a single character: the text before the first occurrence of
`c`, and (when `c` occurs) the text after it.  This corresponds to the first
two pieces produced by Rust's `str::split(c)`. -/
def breakOn (c : Char) : List Char → List Char × Option (List Char)
  | [] => ([], none)
  | x :: rest =>
    if x = c then ([], some rest)
    else
      let p := breakOn c rest
      (x :: p.1, p.2)

/-- The pair `(parts[0], parts[1])` of Rust's `line.split(c).collect()`:
`parts[1]` is the text between the first and second occurrence of `c`
(up to the end when `c` occurs only once), and is `none` when `c` does not
occur at all (indexing `parts[1]` then panics). -/
def splitAt2 (c : Char) (l : List Char) : List Char × Option (List Char) :=
  let p := breakOn c l
  (p.1, p.2.map (fun rest => (breakOn c rest).1))

/-- The text before the first occurrence of the two-character arrow
separator together with the text after it; `none` when no arrow occurs. -/
def breakArrow : List Char → Option (List Char × List Char)
  | [] => none
  | [_] => none
  | c :: d :: rest =>
    if c = '-' ∧ d = '>' then some ([], rest)
    else (breakArrow (d :: rest)).map (fun p => (c :: p.1, p.2))

/-- The pair `(parts[0], parts[1])` of `line.split("->").collect()`:
`none` models the panic of indexing `parts[1]` when the line has no arrow. -/
def arrowParts (l : List Char) : Option (List Char × List Char) :=
  (breakArrow l).map (fun p => (p.1, ((breakArrow p.2).map Prod.fst).getD p.2))

/-- The digit value accumulated by decimal number parsing. -/
def digitsVal (l : List Char) : Nat :=
  l.foldl (fun a c => 10 * a + (c.toNat - 48)) 0

/-- Model of `str::parse::<usize>()`: an optional leading plus sign, then a
nonempty run of digits whose value fits in 64 bits; anything else is a
`ParseIntError`. -/
def parseUsize (l : List Char) : Option Nat :=
  let ds := if l.head? = some '+' then l.tail else l
  if ds = [] then none
  else if ds.all Char.isDigit then
    if digitsVal ds < 2 ^ 64 then some (digitsVal ds) else none
  else none

/-- The move-decoding match of `parse_command`: `R`, `L`, `S` map to
`Right`, `Left`, `Stop`, and any other character falls back to `Stop`. -/
def decodeMove (c : Char) : String :=
  match c with
  | 'R' => "Right"
  | 'L' => "Left"
  | 'S' => "Stop"
  | _ => "Stop"

/-- The `Command` struct of the program. -/
structure Command where
  state : Nat
  next_state : Nat
  reading_char : Char
  place_char : Char
  next_move : String
deriving DecidableEq, Repr

/-- Body of `parse_command`, following the source statement by statement and
additionally returning the character examined by the move match (used to
state reachability of the fallback arm).  `none` models a panic: the
`parts[1]` / `left_split[1]` / `chars[0]` indexings and the `unwrap` on
integer parsing. -/
def parse_command_aux (line : List Char) : Option (Command × Char) := do
  let parts ← arrowParts line
  let left_part := (trimList parts.1).dropWhile (fun c => c = 'q')
  let right_part := (trimList parts.2).dropWhile (fun c => c = 'q')
  let left_split := splitAt2 '(' left_part
  let state_num ← parseUsize (trimList left_split.1)
  let lsym ← left_split.2
  let symbol ← (rtrimMatches ')' lsym).head?
  let right_split := splitAt2 '(' right_part
  let new_state_num ← parseUsize (trimList right_split.1)
  let rsym ← right_split.2
  let sym_move_split := splitAt2 ')' rsym
  let new_symbol ← sym_move_split.1.head?
  let smtail ← sym_move_split.2
  let move_char ← smtail.head?
  pure (⟨state_num, new_state_num, symbol, new_symbol, decodeMove move_char⟩, move_char)

/-- Model of `parse_command`; `none` models a panic. -/
def parse_command (line : List Char) : Option Command :=
  (parse_command_aux line).map Prod.fst

/-- Model of `Vec::dedup`: remove consecutive duplicate characters. -/
def dedupAdj : List Char → List Char
  | [] => []
  | [x] => [x]
  | x :: y :: rest =>
    if x = y then dedupAdj (y :: rest) else x :: dedupAdj (y :: rest)

/-- Model of `sort_unstable` on a character vector: sort by code point. -/
def sortChars (l : List Char) : List Char :=
  List.insertionSort (fun a b => a ≤ b) l

/-- The `uncleaned` value of `parse_alphabet_or_tape`:
`line.split('(').collect()[1].trim_end_matches(')')`.  `none` models the
panic of indexing `[1]` when the line contains no parenthesis. -/
def capturedContent (line : List Char) : Option (List Char) :=
  ((splitAt2 '(' line).2).map (rtrimMatches ')')

/-- Model of `parse_alphabet_or_tape`: the captured content, sorted and
deduplicated unless in tape mode. -/
def parse_alphabet_or_tape (line : List Char) (is_tape : Bool) :
    Option (List Char) :=
  (capturedContent line).map
    (fun uncleaned => if is_tape then uncleaned else dedupAdj (sortChars uncleaned))

/-- One regex step: consume exactly the character `c`. -/
def expectChar (c : Char) : List Char → Option (List Char)
  | x :: rest => if x = c then some rest else none
  | [] => none

/-- One regex step for `\d+` (modelled as ASCII digits): consume one digit
then the maximal run of further digits. -/
def dropDigits1 : List Char → Option (List Char)
  | c :: rest =>
    if c.isDigit then some (rest.dropWhile Char.isDigit) else none
  | [] => none

/-- Consume an exact literal prefix. -/
def dropPrefixCL : List Char → List Char → Option (List Char)
  | [], l => some l
  | _ :: _, [] => none
  | p :: ps, c :: cs => if c = p then dropPrefixCL ps cs else none

/-- Model of the anchored regex `q\d+[(].[)] -> q\d+[(].[)](R|L|S)` where
`.` is any character other than a newline. -/
def command_pattern (l : List Char) : Bool :=
  (do
    let r1 ← expectChar 'q' l
    let r2 ← dropDigits1 r1
    let r3 ← expectChar '(' r2
    match r3 with
    | [] => none
    | c1 :: r4 =>
      if c1 = '\n' then none
      else do
        let r5 ← expectChar ')' r4
        let r6 ← expectChar ' ' r5
        let r7 ← expectChar '-' r6
        let r8 ← expectChar '>' r7
        let r9 ← expectChar ' ' r8
        let r10 ← expectChar 'q' r9
        let r11 ← dropDigits1 r10
        let r12 ← expectChar '(' r11
        match r12 with
        | [] => none
        | c2 :: r13 =>
          if c2 = '\n' then none
          else do
            let r14 ← expectChar ')' r13
            match r14 with
            | [m] =>
              if m = 'R' ∨ m = 'L' ∨ m = 'S' then some () else none
            | _ => none).isSome

/-- Model of the anchored regex `alphabet: *[(].*[)]`. -/
def alphabet_pattern (l : List Char) : Bool :=
  (do
    let r1 ← dropPrefixCL ("alphabet:".toList) l
    let r2 := r1.dropWhile (fun c => c = ' ')
    let r3 ← expectChar '(' r2
    match r3.reverse with
    | ')' :: body =>
      if body.all (fun c => !(c = '\n')) then some () else none
    | _ => none).isSome

/-- Model of the anchored regex `tape: *[(][*].*[)]`. -/
def tape_pattern (l : List Char) : Bool :=
  (do
    let r1 ← dropPrefixCL ("tape:".toList) l
    let r2 := r1.dropWhile (fun c => c = ' ')
    let r3 ← expectChar '(' r2
    let r4 ← expectChar '*' r3
    match r4.reverse with
    | ')' :: body =>
      if body.all (fun c => !(c = '\n')) then some () else none
    | _ => none).isSome

/-- The `TMachineConfiguration` struct of the program. -/
structure TMachineConfiguration where
  commands : List Command
  alphabet : Option (List Char)
  tape : Option (List Char)
deriving DecidableEq, Repr

/-- The configuration before any line has been processed. -/
def initialConf : TMachineConfiguration := ⟨[], none, none⟩

/-- One iteration of the line loop of `main`: trim the line, dispatch on the
first matching pattern, ignore unrecognized lines.  `none` models a panic
inside a parser. -/
def processLine (conf : TMachineConfiguration) (raw : List Char) :
    Option TMachineConfiguration :=
  let line := trimList raw
  if command_pattern line then
    (parse_command line).map
      (fun cmd => ⟨conf.commands ++ [cmd], conf.alphabet, conf.tape⟩)
  else if alphabet_pattern line then
    (parse_alphabet_or_tape line false).map
      (fun a => ⟨conf.commands, some a, conf.tape⟩)
  else if tape_pattern line then
    (parse_alphabet_or_tape line true).map
      (fun t => ⟨conf.commands, conf.alphabet, some t⟩)
  else some conf

/-- The whole line loop of `main`. -/
def processLines : TMachineConfiguration → List (List Char) →
    Option TMachineConfiguration
  | conf, [] => some conf
  | conf, l :: ls =>
    match processLine conf l with
    | none => none
    | some c2 => processLines c2 ls

/-- Outcome of `main` after the line loop: serialized output, one of the
two missing-field terminations (`exit(4)` and `exit(5)`), or a panic in a
parser. -/
inductive MainResult where
  | output (conf : TMachineConfiguration)
  | missingAlphabet
  | missingTape
  | panicked
deriving DecidableEq, Repr

/-- The checks following the line loop of `main`: the alphabet check runs
first and exits before the tape check is reached. -/
def runMain (lines : List (List Char)) : MainResult :=
  match processLines initialConf lines with
  | none => MainResult.panicked
  | some conf =>
    if conf.alphabet.isNone then MainResult.missingAlphabet
    else if conf.tape.isNone then MainResult.missingTape
    else MainResult.output conf

/-- The rules contributed by each input line, in input order: one parsed
command per line classified as a transition. -/
def commandsOf (lines : List (List Char)) : List Command :=
  lines.filterMap
    (fun raw =>
      let line := trimList raw
      if command_pattern line then parse_command line else none)

/-- A transition line of the shape `q<S>(<r>) -> q<N>(<w>)<M>`. -/
def renderLine (S : List Char) (r : Char) (N : List Char) (w : Char)
    (M : Char) : List Char :=
  'q' :: S ++ '(' :: r :: ')' :: ' ' :: '-' :: '>' :: ' ' :: 'q' ::
    N ++ '(' :: w :: ')' :: [M]

/-! ### Character facts -/

theorem digit_ne {c : Char} (h : c.isDigit = true) :
    c ≠ '-' ∧ c ≠ '(' ∧ c ≠ ')' ∧ c ≠ 'q' ∧ c ≠ '+' ∧ c ≠ '\n' := by
  refine ⟨?_, ?_, ?_, ?_, ?_, ?_⟩ <;>
    (intro he; subst he; exact absurd h (by decide))

theorem isDigit_toNat {c : Char} (h : c.isDigit = true) :
    48 ≤ c.toNat ∧ c.toNat ≤ 57 := by
  simp only [Char.isDigit, Bool.and_eq_true, decide_eq_true_eq] at h
  exact ⟨h.1, h.2⟩

theorem digit_not_ws {c : Char} (h : c.isDigit = true) : isWS c = false := by
  obtain ⟨h1, h2⟩ := isDigit_toNat h
  rw [Bool.eq_false_iff]
  intro hw
  unfold isWS at hw
  simp only [Bool.or_eq_true, Bool.and_eq_true, decide_eq_true_eq] at hw
  omega

/-! ### dropWhile and trim lemmas -/

theorem dropWhile_cons_neg {p : Char → Bool} {c : Char} {l : List Char}
    (h : p c = false) : (c :: l).dropWhile p = c :: l := by
  simp [List.dropWhile_cons, h]

theorem dropWhile_all_pos {p : Char → Bool} {A : List Char}
    (h : ∀ x ∈ A, p x = true) (B : List Char) :
    (A ++ B).dropWhile p = B.dropWhile p := by
  induction A with
  | nil => rfl
  | cons a A ih =>
    simp only [List.cons_append, List.dropWhile_cons, h a (by simp)]
    exact ih (fun x hx => h x (by simp [hx]))

theorem trim_ends {ws1 ws2 : List Char} {a c : Char} {mid : List Char}
    (h1 : ∀ x ∈ ws1, isWS x = true) (ha : isWS a = false)
    (hc : isWS c = false) (h2 : ∀ x ∈ ws2, isWS x = true) :
    trimList (ws1 ++ a :: (mid ++ [c]) ++ ws2) = a :: (mid ++ [c]) := by
  unfold trimList
  rw [show ws1 ++ a :: (mid ++ [c]) ++ ws2 = ws1 ++ (a :: (mid ++ [c]) ++ ws2) by
    simp]
  rw [dropWhile_all_pos h1]
  rw [show a :: (mid ++ [c]) ++ ws2 = a :: (mid ++ [c] ++ ws2) by simp]
  rw [dropWhile_cons_neg ha]
  rw [show (a :: (mid ++ [c] ++ ws2)).reverse
      = ws2.reverse ++ (c :: (a :: mid).reverse) by simp]
  rw [dropWhile_all_pos (by intro x hx; exact h2 x (by simpa using hx))]
  rw [dropWhile_cons_neg hc]
  simp

theorem trimList_no_ws {l : List Char} (h : ∀ x ∈ l, isWS x = false) :
    trimList l = l := by
  unfold trimList
  have h1 : l.dropWhile isWS = l := by
    cases l with
    | nil => rfl
    | cons a l => exact dropWhile_cons_neg (h a (by simp))
  rw [h1]
  have h2 : l.reverse.dropWhile isWS = l.reverse := by
    cases hr : l.reverse with
    | nil => rfl
    | cons a r =>
      refine dropWhile_cons_neg (h a ?_)
      have : a ∈ l.reverse := by rw [hr]; simp
      simpa using this
  rw [h2, List.reverse_reverse]

/-! ### breakOn and splitAt2 lemmas -/

theorem breakOn_not_mem {c : Char} {l : List Char} (h : c ∉ l) :
    breakOn c l = (l, none) := by
  induction l with
  | nil => rfl
  | cons x rest ih =>
    have hx : ¬(x = c) := fun he => h (by simp [he])
    simp only [breakOn, if_neg hx, ih (fun hm => h (by simp [hm]))]

theorem breakOn_append {c : Char} {A : List Char} (h : c ∉ A) (B : List Char) :
    breakOn c (A ++ c :: B) = (A, some B) := by
  induction A with
  | nil => simp [breakOn]
  | cons a A ih =>
    have ha : ¬(a = c) := fun he => h (by simp [he])
    have hA : c ∉ A := fun hm => h (by simp [hm])
    simp only [List.cons_append, breakOn, if_neg ha, List.append_eq, ih hA]

theorem splitAt2_single {c : Char} {A B : List Char} (hA : c ∉ A) (hB : c ∉ B) :
    splitAt2 c (A ++ c :: B) = (A, some B) := by
  simp [splitAt2, breakOn_append hA, breakOn_not_mem hB]

theorem splitAt2_double {c : Char} {A : List Char} (hA : c ∉ A)
    (B : List Char) : splitAt2 c (A ++ c :: B) =
      (A, some (breakOn c B).1) := by
  simp [splitAt2, breakOn_append hA]

/-! ### breakArrow and arrowParts lemmas -/

theorem breakArrow_no_dash {A : List Char} (h : ∀ x ∈ A, x ≠ '-')
    (l : List Char) : breakArrow (A ++ l) =
      (breakArrow l).map (fun p => (A ++ p.1, p.2)) := by
  induction A with
  | nil =>
    cases hb : breakArrow l <;> simp [hb]
  | cons a A ih =>
    have ha : a ≠ '-' := h a (by simp)
    have hA : ∀ x ∈ A, x ≠ '-' := fun x hx => h x (by simp [hx])
    cases he : A ++ l with
    | nil =>
      rcases List.append_eq_nil.mp he with ⟨rfl, rfl⟩
      simp [breakArrow]
    | cons e rest =>
      have hcond : ¬(a = '-' ∧ e = '>') := fun hand => ha hand.1
      have hstep : breakArrow (a :: (A ++ l)) =
          (breakArrow (A ++ l)).map (fun p => (a :: p.1, p.2)) := by
        rw [he]
        simp only [breakArrow, if_neg hcond]
      simp only [List.cons_append, hstep, ih hA, Option.map_map]
      cases hb : breakArrow l <;> simp [hb]

theorem digits_no_dash {S : List Char} (hS : ∀ c ∈ S, c.isDigit = true) :
    ∀ x ∈ 'q' :: S, x ≠ '-' := by
  intro x hx
  rcases List.mem_cons.mp hx with rfl | hm
  · decide
  · exact (digit_ne (hS x hm)).1

theorem breakArrow_core (r : Char) (rest : List Char) :
    breakArrow ('(' :: r :: ')' :: ' ' :: '-' :: '>' :: rest) =
      some (['(', r, ')', ' '], rest) := by
  have hr1 : ¬('(' = '-' ∧ r = '>') := fun hand => absurd hand.1 (by decide)
  have hr2 : ¬(r = '-' ∧ ')' = '>') := fun hand => absurd hand.2 (by decide)
  simp only [breakArrow, if_neg hr1, if_neg hr2]
  simp

theorem breakArrow_rhs_none {N : List Char} (hN : ∀ c ∈ N, c.isDigit = true)
    (w M : Char) : breakArrow (' ' :: 'q' :: N ++ ['(', w, ')', M]) = none := by
  have hA : ∀ x ∈ (' ' :: 'q' :: N), x ≠ '-' := by
    intro x hx
    rcases List.mem_cons.mp hx with rfl | hx2
    · decide
    rcases List.mem_cons.mp hx2 with rfl | hx3
    · decide
    · exact (digit_ne (hN x hx3)).1
  have h1 : ¬('(' = '-' ∧ w = '>') := fun hand => absurd hand.1 (by decide)
  have h2 : ¬(w = '-' ∧ ')' = '>') := fun hand => absurd hand.2 (by decide)
  have h3 : ¬(')' = '-' ∧ M = '>') := fun hand => absurd hand.1 (by decide)
  have hin : breakArrow ['(', w, ')', M] = none := by
    simp only [breakArrow, if_neg h1, if_neg h2, if_neg h3]
    simp [breakArrow]
  have hmain := breakArrow_no_dash hA ['(', w, ')', M]
  rw [show (' ' :: 'q' :: N) ++ ['(', w, ')', M]
      = ' ' :: 'q' :: N ++ ['(', w, ')', M] by simp] at hmain
  rw [hmain, hin]
  rfl

theorem arrowParts_render {S N : List Char} (hS : ∀ c ∈ S, c.isDigit = true)
    (hN : ∀ c ∈ N, c.isDigit = true) (r w M : Char) :
    arrowParts (renderLine S r N w M) =
      some ('q' :: S ++ ['(', r, ')', ' '],
        ' ' :: 'q' :: N ++ ['(', w, ')', M]) := by
  have hfront := breakArrow_no_dash (digits_no_dash hS)
    ('(' :: r :: ')' :: ' ' :: '-' :: '>' ::
      (' ' :: 'q' :: N ++ ['(', w, ')', M]))
  rw [breakArrow_core] at hfront
  simp only [Option.map_some'] at hfront
  have hline : renderLine S r N w M =
      ('q' :: S) ++ ('(' :: r :: ')' :: ' ' :: '-' :: '>' ::
        (' ' :: 'q' :: N ++ ['(', w, ')', M])) := by
    simp [renderLine]
  unfold arrowParts
  rw [hline, hfront]
  simp only [Option.map_some']
  rw [breakArrow_rhs_none hN w M]
  rfl

/-! ### parseUsize, rtrim and dropWhile-q lemmas -/

theorem parseUsize_digits {S : List Char} (hS : ∀ c ∈ S, c.isDigit = true)
    (hne : S ≠ []) :
    parseUsize S = if digitsVal S < 2 ^ 64 then some (digitsVal S) else none := by
  obtain ⟨s, S', rfl⟩ := List.exists_cons_of_ne_nil hne
  have hs : s ≠ '+' := (digit_ne (hS s (by simp))).2.2.2.2.1
  have hall : (s :: S').all Char.isDigit = true := by
    simp only [List.all_eq_true]
    exact fun c hc => hS c hc
  simp only [parseUsize]
  simp [hs, hall]

theorem rtrim_pair {r : Char} (h : r ≠ ')') : rtrimMatches ')' [r, ')'] = [r] := by
  unfold rtrimMatches
  simp [List.dropWhile_cons, h]

theorem rtrim_concat (l : List Char) :
    rtrimMatches ')' (l ++ [')']) = rtrimMatches ')' l := by
  unfold rtrimMatches
  simp [List.dropWhile_cons]

theorem rtrim_no_trailing {l : List Char} (h : l.getLast? ≠ some ')') :
    rtrimMatches ')' l = l := by
  unfold rtrimMatches
  cases hr : l.reverse with
  | nil =>
    have : l = [] := by simpa using congrArg List.reverse hr
    subst this
    simp
  | cons a rest =>
    have hlast : l.getLast? = some a := by
      rw [← List.head?_reverse, hr]
      rfl
    have ha : a ≠ ')' := fun he => h (by rw [hlast, he])
    rw [dropWhile_cons_neg (by simp [ha])]
    rw [← hr, List.reverse_reverse]

theorem dropq_digits {S : List Char} (hS : ∀ c ∈ S, c.isDigit = true)
    (l : List Char) :
    (S ++ '(' :: l).dropWhile (fun c => c = 'q') = S ++ '(' :: l := by
  cases S with
  | nil => simp [List.dropWhile_cons]
  | cons s S' =>
    have hq : s ≠ 'q' := (digit_ne (hS s (by simp))).2.2.2.1
    simp [List.dropWhile_cons, hq]

/-! ### Evaluating parse_command on rendered transition lines -/

theorem parse_command_aux_render {S N : List Char} {r w M : Char}
    (hS : ∀ c ∈ S, c.isDigit = true) (hN : ∀ c ∈ N, c.isDigit = true)
    (hSne : S ≠ []) (hNne : N ≠ [])
    (hSv : digitsVal S < 2 ^ 64) (hNv : digitsVal N < 2 ^ 64)
    (hr1 : r ≠ '(') (hr2 : r ≠ ')') (hw1 : w ≠ '(') (hw2 : w ≠ ')')
    (hM1 : M ≠ '(') (hM2 : M ≠ ')') (hM3 : isWS M = false) :
    parse_command_aux (renderLine S r N w M) =
      some (⟨digitsVal S, digitsVal N, r, w, decodeMove M⟩, M) := by
  have h1 := arrowParts_render hS hN r w M
  have h2 : trimList ('q' :: S ++ ['(', r, ')', ' ']) = 'q' :: S ++ ['(', r, ')'] := by
    have h := @trim_ends [] [' '] 'q' ')' (S ++ ['(', r])
      (by simp) (by decide) (by decide) (by decide)
    simpa using h
  have h3 : ('q' :: S ++ ['(', r, ')']).dropWhile (fun c => c = 'q')
      = S ++ ['(', r, ')'] := by
    rw [show ('q' :: S ++ ['(', r, ')'] : List Char)
        = 'q' :: (S ++ ['(', r, ')']) by simp]
    rw [List.dropWhile_cons]
    simp only [decide_True, if_true]
    exact dropq_digits hS [r, ')']
  have hSnp : '(' ∉ S := fun hm => (digit_ne (hS _ hm)).2.1 rfl
  have hNnp : '(' ∉ N := fun hm => (digit_ne (hN _ hm)).2.1 rfl
  have h4 : splitAt2 '(' (S ++ ['(', r, ')']) = (S, some [r, ')']) := by
    refine splitAt2_single hSnp ?_
    intro hm
    rcases List.mem_cons.mp hm with he | hm2
    · exact hr1 he.symm
    · exact absurd (List.mem_singleton.mp hm2) (by decide)
  have h5 : parseUsize (trimList S) = some (digitsVal S) := by
    rw [trimList_no_ws (fun c hc => digit_not_ws (hS c hc))]
    rw [parseUsize_digits hS hSne, if_pos hSv]
  have h6 : rtrimMatches ')' [r, ')'] = [r] := rtrim_pair hr2
  have h7 : trimList (' ' :: 'q' :: N ++ ['(', w, ')', M])
      = 'q' :: N ++ ['(', w, ')', M] := by
    have h := @trim_ends [' '] [] 'q' M (N ++ ['(', w, ')'])
      (by decide) (by decide) hM3 (by simp)
    simpa using h
  have h8 : ('q' :: N ++ ['(', w, ')', M]).dropWhile (fun c => c = 'q')
      = N ++ ['(', w, ')', M] := by
    rw [show ('q' :: N ++ ['(', w, ')', M] : List Char)
        = 'q' :: (N ++ ['(', w, ')', M]) by simp]
    rw [List.dropWhile_cons]
    simp only [decide_True, if_true]
    exact dropq_digits hN [w, ')', M]
  have h9 : splitAt2 '(' (N ++ ['(', w, ')', M]) = (N, some [w, ')', M]) := by
    refine splitAt2_single hNnp ?_
    intro hm
    rcases List.mem_cons.mp hm with he | hm2
    · exact hw1 he.symm
    rcases List.mem_cons.mp hm2 with he | hm3
    · exact absurd he (by decide)
    · exact hM1 (List.mem_singleton.mp hm3).symm
  have h10 : parseUsize (trimList N) = some (digitsVal N) := by
    rw [trimList_no_ws (fun c hc => digit_not_ws (hN c hc))]
    rw [parseUsize_digits hN hNne, if_pos hNv]
  have h11 : splitAt2 ')' [w, ')', M] = ([w], some [M]) := by
    rw [show ([w, ')', M] : List Char) = [w] ++ ')' :: [M] by simp]
    refine splitAt2_single ?_ ?_
    · intro hm
      exact hw2 (List.mem_singleton.mp hm).symm
    · intro hm
      exact hM2 (List.mem_singleton.mp hm).symm
  simp only [parse_command_aux, h1, Option.bind_eq_bind, Option.some_bind]
  rw [h2, h7, h3, h8, h4, h9]
  simp only [Option.some_bind, h5, h10]
  rw [h6, h11]
  simp

theorem left_part_render {S : List Char} (hS : ∀ c ∈ S, c.isDigit = true)
    (r : Char) :
    (trimList ('q' :: S ++ ['(', r, ')', ' '])).dropWhile (fun c => c = 'q')
      = S ++ ['(', r, ')'] := by
  have h2 : trimList ('q' :: S ++ ['(', r, ')', ' ']) = 'q' :: S ++ ['(', r, ')'] := by
    have h := @trim_ends [] [' '] 'q' ')' (S ++ ['(', r])
      (by simp) (by decide) (by decide) (by decide)
    simpa using h
  rw [h2]
  rw [show ('q' :: S ++ ['(', r, ')'] : List Char)
      = 'q' :: (S ++ ['(', r, ')']) by simp]
  rw [List.dropWhile_cons]
  simp only [decide_True, if_true]
  exact dropq_digits hS [r, ')']

theorem right_part_render {N : List Char} (hN : ∀ c ∈ N, c.isDigit = true)
    (w : Char) {M : Char} (hM3 : isWS M = false) :
    (trimList (' ' :: 'q' :: N ++ ['(', w, ')', M])).dropWhile (fun c => c = 'q')
      = N ++ ['(', w, ')', M] := by
  have h7 : trimList (' ' :: 'q' :: N ++ ['(', w, ')', M])
      = 'q' :: N ++ ['(', w, ')', M] := by
    have h := @trim_ends [' '] [] 'q' M (N ++ ['(', w, ')'])
      (by decide) (by decide) hM3 (by simp)
    simpa using h
  rw [h7]
  rw [show ('q' :: N ++ ['(', w, ')', M] : List Char)
      = 'q' :: (N ++ ['(', w, ')', M]) by simp]
  rw [List.dropWhile_cons]
  simp only [decide_True, if_true]
  exact dropq_digits hN [w, ')', M]

/-- Failing to parse the left numeric prefix makes the whole parse fail:
this is the `unwrap` panic of `parse_command`. -/
theorem aux_state_none {line p0 p1 : List Char}
    (h1 : arrowParts line = some (p0, p1))
    (h2 : parseUsize (trimList
      (splitAt2 '(' ((trimList p0).dropWhile (fun c => c = 'q'))).1) = none) :
    parse_command_aux line = none := by
  simp only [parse_command_aux, h1, Option.bind_eq_bind, Option.some_bind]
  rw [h2]
  rfl

/-- Failing to parse the right numeric prefix makes the whole parse fail
as well, whatever the left half did. -/
theorem aux_right_prefix_none {line p0 p1 : List Char}
    (h1 : arrowParts line = some (p0, p1))
    (h2 : parseUsize (trimList (splitAt2 '('
      ((trimList p1).dropWhile (fun c => c = 'q'))).1) = none) :
    parse_command_aux line = none := by
  simp only [parse_command_aux, h1, Option.bind_eq_bind, Option.some_bind]
  cases hps : parseUsize (trimList (splitAt2 '('
      ((trimList p0).dropWhile (fun c => c = 'q'))).1) with
  | none => rfl
  | some v =>
    simp only [Option.some_bind]
    cases hls : (splitAt2 '(' ((trimList p0).dropWhile (fun c => c = 'q'))).2 with
    | none => rfl
    | some lsym =>
      simp only [Option.some_bind]
      cases hsym : (rtrimMatches ')' lsym).head? with
      | none => rfl
      | some symbol =>
        simp only [Option.some_bind, h2]
        rfl

/-- A read symbol that is itself a parenthesis drives `parse_command` into
the `chars[0]` panic on an empty symbol slice. -/
theorem aux_render_r_paren {S N : List Char} {r w M : Char}
    (hS : ∀ c ∈ S, c.isDigit = true) (hN : ∀ c ∈ N, c.isDigit = true)
    (hr : r = '(' ∨ r = ')') :
    parse_command_aux (renderLine S r N w M) = none := by
  have h1 := arrowParts_render hS hN r w M
  have hSnp : '(' ∉ S := fun hm => (digit_ne (hS _ hm)).2.1 rfl
  simp only [parse_command_aux, h1, Option.bind_eq_bind, Option.some_bind]
  rw [left_part_render hS r]
  rcases hr with rfl | rfl
  · have h4 : splitAt2 '(' (S ++ ['(', '(', ')']) = (S, some []) := by
      rw [show (S ++ ['(', '(', ')'] : List Char) = S ++ '(' :: ['(', ')'] by simp]
      rw [splitAt2_double hSnp]
      simp [breakOn]
    rw [h4]
    cases hps : parseUsize (trimList S) with
    | none => rfl
    | some v => simp [rtrimMatches]
  · have h4 : splitAt2 '(' (S ++ ['(', ')', ')']) = (S, some [')', ')']) := by
      rw [show (S ++ ['(', ')', ')'] : List Char) = S ++ '(' :: [')', ')'] by simp]
      exact splitAt2_single hSnp (by decide)
    rw [h4]
    cases hps : parseUsize (trimList S) with
    | none => rfl
    | some v =>
      have hrt : rtrimMatches ')' [')', ')'] = [] := by decide
      simp [hrt]

theorem splitLeft_render {S : List Char} (hS : ∀ c ∈ S, c.isDigit = true)
    {r : Char} (hr1 : r ≠ '(') :
    splitAt2 '(' (S ++ ['(', r, ')']) = (S, some [r, ')']) := by
  have hSnp : '(' ∉ S := fun hm => (digit_ne (hS _ hm)).2.1 rfl
  refine splitAt2_single hSnp ?_
  intro hm
  rcases List.mem_cons.mp hm with he | hm2
  · exact hr1 he.symm
  · exact absurd (List.mem_singleton.mp hm2) (by decide)

theorem splitRight_render {N : List Char} (hN : ∀ c ∈ N, c.isDigit = true)
    {w M : Char} (hw1 : w ≠ '(') (hM1 : M ≠ '(') :
    splitAt2 '(' (N ++ ['(', w, ')', M]) = (N, some [w, ')', M]) := by
  have hNnp : '(' ∉ N := fun hm => (digit_ne (hN _ hm)).2.1 rfl
  refine splitAt2_single hNnp ?_
  intro hm
  rcases List.mem_cons.mp hm with he | hm2
  · exact hw1 he.symm
  rcases List.mem_cons.mp hm2 with he | hm3
  · exact absurd he (by decide)
  · exact hM1 (List.mem_singleton.mp hm3).symm

/-- A write symbol that is itself a parenthesis drives `parse_command` into
the `chars[0]` panic on an empty symbol slice. -/
theorem aux_render_w_paren {S N : List Char} {r w M : Char}
    (hS : ∀ c ∈ S, c.isDigit = true) (hN : ∀ c ∈ N, c.isDigit = true)
    (hr1 : r ≠ '(') (hr2 : r ≠ ')')
    (hw : w = '(' ∨ w = ')') (hM1 : M ≠ '(') (hM3 : isWS M = false) :
    parse_command_aux (renderLine S r N w M) = none := by
  have h1 := arrowParts_render hS hN r w M
  have hNnp : '(' ∉ N := fun hm => (digit_ne (hN _ hm)).2.1 rfl
  simp only [parse_command_aux, h1, Option.bind_eq_bind, Option.some_bind]
  rw [left_part_render hS r, right_part_render hN w hM3]
  rw [splitLeft_render hS hr1]
  have h9 : splitAt2 '(' (N ++ ['(', w, ')', M]) =
      (N, some (if w = '(' then [] else [w, ')', M])) := by
    rcases hw with rfl | rfl
    · rw [show (N ++ ['(', '(', ')', M] : List Char)
          = N ++ '(' :: ['(', ')', M] by simp]
      rw [splitAt2_double hNnp]
      simp [breakOn]
    · rw [if_neg (by decide)]
      exact splitRight_render hN (by decide) hM1
  rw [h9]
  cases hps : parseUsize (trimList S) with
  | none => rfl
  | some v =>
    simp only [Option.some_bind]
    rw [rtrim_pair hr2]
    simp only [List.head?_cons, Option.some_bind]
    cases hpn : parseUsize (trimList N) with
    | none => rfl
    | some v2 =>
      simp only [Option.some_bind]
      rcases hw with rfl | rfl
      · simp [splitAt2, breakOn]
      · simp [splitAt2, breakOn]

/-- Failing to parse the right numeric prefix also makes the parse fail. -/
theorem aux_render_right_state_none {S N : List Char} {r w M : Char}
    (hS : ∀ c ∈ S, c.isDigit = true) (hN : ∀ c ∈ N, c.isDigit = true)
    (hr1 : r ≠ '(') (hr2 : r ≠ ')') (hw1 : w ≠ '(') (hM1 : M ≠ '(')
    (hM3 : isWS M = false)
    (hfail : parseUsize (trimList N) = none) :
    parse_command_aux (renderLine S r N w M) = none := by
  have h1 := arrowParts_render hS hN r w M
  simp only [parse_command_aux, h1, Option.bind_eq_bind, Option.some_bind]
  rw [left_part_render hS r, right_part_render hN w hM3]
  rw [splitLeft_render hS hr1, splitRight_render hN hw1 hM1]
  cases hps : parseUsize (trimList S) with
  | none => rfl
  | some v =>
    simp only [Option.some_bind]
    rw [rtrim_pair hr2]
    simp only [List.head?_cons, Option.some_bind, hfail]
    rfl

/-! ### Classifier lemmas -/

theorem expectChar_cons (c : Char) (l : List Char) :
    expectChar c (c :: l) = some l := by
  simp [expectChar]

theorem expectChar_eq_some {c : Char} {l r : List Char}
    (h : expectChar c l = some r) : l = c :: r := by
  cases l with
  | nil => simp [expectChar] at h
  | cons x xs =>
    by_cases hx : x = c
    · subst hx
      simp [expectChar] at h
      rw [h]
    · simp [expectChar, hx] at h

theorem dropDigits1_digits {S : List Char} (hS : ∀ c ∈ S, c.isDigit = true)
    (hne : S ≠ []) {x : Char} (hx : x.isDigit = false) (l : List Char) :
    dropDigits1 (S ++ x :: l) = some (x :: l) := by
  obtain ⟨s, S', rfl⟩ := List.exists_cons_of_ne_nil hne
  simp only [List.cons_append, dropDigits1, hS s (by simp), if_true]
  rw [dropWhile_all_pos (fun c hc => hS c (by simp [hc])) (x :: l)]
  rw [dropWhile_cons_neg hx]

theorem dropDigits1_eq_some {l r : List Char} (h : dropDigits1 l = some r) :
    ∃ D, D ≠ [] ∧ (∀ c ∈ D, c.isDigit = true) ∧ l = D ++ r := by
  cases l with
  | nil => simp [dropDigits1] at h
  | cons c rest =>
    by_cases hc : c.isDigit = true
    · refine ⟨c :: rest.takeWhile Char.isDigit, by simp, ?_, ?_⟩
      · intro x hx
        rcases List.mem_cons.mp hx with rfl | hx2
        · exact hc
        · exact List.mem_takeWhile_imp hx2
      · simp only [dropDigits1, hc, if_true, Option.some.injEq] at h
        rw [← h, List.cons_append]
        rw [List.takeWhile_append_dropWhile Char.isDigit rest]
    · rw [Bool.not_eq_true] at hc
      simp [dropDigits1, hc] at h

theorem command_pattern_render {S N : List Char} {r w M : Char}
    (hS : ∀ c ∈ S, c.isDigit = true) (hN : ∀ c ∈ N, c.isDigit = true)
    (hSne : S ≠ []) (hNne : N ≠ [])
    (hr : r ≠ '\n') (hw : w ≠ '\n')
    (hM : M = 'R' ∨ M = 'L' ∨ M = 'S') :
    command_pattern (renderLine S r N w M) = true := by
  unfold command_pattern
  rw [show renderLine S r N w M
      = 'q' :: (S ++ '(' :: r :: ')' :: ' ' :: '-' :: '>' :: ' ' :: 'q' ::
        (N ++ '(' :: w :: ')' :: [M])) by simp [renderLine]]
  simp only [expectChar_cons, Option.bind_eq_bind, Option.some_bind]
  rw [dropDigits1_digits hS hSne (by decide) (r :: ')' :: ' ' :: '-' :: '>' ::
    ' ' :: 'q' :: (N ++ '(' :: w :: ')' :: [M]))]
  simp only [Option.some_bind, expectChar_cons]
  rw [if_neg hr]
  rw [dropDigits1_digits hN hNne (by decide) (w :: ')' :: [M])]
  simp only [Option.some_bind, expectChar_cons]
  rw [if_neg hw]
  rw [if_pos hM]
  rfl

/-- Inversion of the transition-line regex: a matching line has exactly the
rendered shape, with nonempty digit runs and a final move letter. -/
theorem command_pattern_inv {l : List Char} (h : command_pattern l = true) :
    ∃ S r N w M, l = renderLine S r N w M ∧ S ≠ [] ∧ N ≠ [] ∧
      (∀ c ∈ S, c.isDigit = true) ∧ (∀ c ∈ N, c.isDigit = true) ∧
      r ≠ '\n' ∧ w ≠ '\n' ∧ (M = 'R' ∨ M = 'L' ∨ M = 'S') := by
  unfold command_pattern at h
  rw [Option.isSome_iff_exists] at h
  obtain ⟨u, hu⟩ := h
  simp only [Option.bind_eq_bind] at hu
  rw [Option.bind_eq_some] at hu
  obtain ⟨r1, h1, hu⟩ := hu
  have hl := expectChar_eq_some h1
  rw [Option.bind_eq_some] at hu
  obtain ⟨r2, h2, hu⟩ := hu
  obtain ⟨S, hSne, hS, hr1⟩ := dropDigits1_eq_some h2
  rw [Option.bind_eq_some] at hu
  obtain ⟨r3, h3, hu⟩ := hu
  have hr2 := expectChar_eq_some h3
  cases r3 with
  | nil => exact absurd hu (by simp)
  | cons c1 r4 =>
  simp only [] at hu
  by_cases hc1 : c1 = '\n'
  · rw [if_pos hc1] at hu
    exact absurd hu (by simp)
  rw [if_neg hc1] at hu
  rw [Option.bind_eq_some] at hu
  obtain ⟨r5, h5, hu⟩ := hu
  have hr4 := expectChar_eq_some h5
  rw [Option.bind_eq_some] at hu
  obtain ⟨r6, h6, hu⟩ := hu
  have hr5 := expectChar_eq_some h6
  rw [Option.bind_eq_some] at hu
  obtain ⟨r7, h7, hu⟩ := hu
  have hr6 := expectChar_eq_some h7
  rw [Option.bind_eq_some] at hu
  obtain ⟨r8, h8, hu⟩ := hu
  have hr7 := expectChar_eq_some h8
  rw [Option.bind_eq_some] at hu
  obtain ⟨r9, h9, hu⟩ := hu
  have hr8 := expectChar_eq_some h9
  rw [Option.bind_eq_some] at hu
  obtain ⟨r10, h10, hu⟩ := hu
  have hr9 := expectChar_eq_some h10
  rw [Option.bind_eq_some] at hu
  obtain ⟨r11, h11, hu⟩ := hu
  obtain ⟨N, hNne, hN, hr10⟩ := dropDigits1_eq_some h11
  rw [Option.bind_eq_some] at hu
  obtain ⟨r12, h12, hu⟩ := hu
  have hr11 := expectChar_eq_some h12
  cases r12 with
  | nil => exact absurd hu (by simp)
  | cons c2 r13 =>
  simp only [] at hu
  by_cases hc2 : c2 = '\n'
  · rw [if_pos hc2] at hu
    exact absurd hu (by simp)
  rw [if_neg hc2] at hu
  rw [Option.bind_eq_some] at hu
  obtain ⟨r14, h14, hu⟩ := hu
  have hr13 := expectChar_eq_some h14
  cases r14 with
  | nil => exact absurd hu (by simp)
  | cons m rest =>
  cases rest with
  | cons x xs => exact absurd hu (by simp)
  | nil =>
  simp only [] at hu
  by_cases hm : m = 'R' ∨ m = 'L' ∨ m = 'S'
  · refine ⟨S, c1, N, c2, m, ?_, hSne, hNne, hS, hN, hc1, hc2, hm⟩
    subst hl hr1 hr2 hr4 hr5 hr6 hr7 hr8 hr9 hr10 hr11 hr13
    simp [renderLine]
  · rw [if_neg hm] at hu
    exact absurd hu (by simp)

theorem dropPrefixCL_eq_some {p l r : List Char}
    (h : dropPrefixCL p l = some r) : l = p ++ r := by
  induction p generalizing l with
  | nil =>
    simp only [dropPrefixCL, Option.some.injEq] at h
    simp [h]
  | cons x ps ih =>
    cases l with
    | nil => simp [dropPrefixCL] at h
    | cons c cs =>
      by_cases hc : c = x
      · subst hc
        simp only [dropPrefixCL, if_pos rfl] at h
        simp [ih h]
      · simp [dropPrefixCL, hc] at h

/-- Inversion of the alphabet-line regex, up to the opening parenthesis. -/
theorem alphabet_pattern_inv {l : List Char} (h : alphabet_pattern l = true) :
    ∃ sp rest, (∀ x ∈ sp, x = ' ') ∧
      l = ("alphabet:".toList) ++ sp ++ '(' :: rest := by
  unfold alphabet_pattern at h
  rw [Option.isSome_iff_exists] at h
  obtain ⟨u, hu⟩ := h
  simp only [Option.bind_eq_bind] at hu
  rw [Option.bind_eq_some] at hu
  obtain ⟨r1, h1, hu⟩ := hu
  have hl := dropPrefixCL_eq_some h1
  rw [Option.bind_eq_some] at hu
  obtain ⟨r3, h3, _⟩ := hu
  have h2 := expectChar_eq_some h3
  refine ⟨r1.takeWhile (fun c => c = ' '), r3, ?_, ?_⟩
  · intro x hx
    have := List.mem_takeWhile_imp hx
    simpa using this
  · rw [hl, List.append_assoc]
    congr 1
    conv_lhs => rw [← List.takeWhile_append_dropWhile (fun c => decide (c = ' ')) r1]
    rw [show List.dropWhile (fun c => decide (c = ' ')) r1 = '(' :: r3 from h2]

/-- Inversion of the tape-line regex, up to the star marker. -/
theorem tape_pattern_inv {l : List Char} (h : tape_pattern l = true) :
    ∃ sp rest, (∀ x ∈ sp, x = ' ') ∧
      l = ("tape:".toList) ++ sp ++ '(' :: '*' :: rest := by
  unfold tape_pattern at h
  rw [Option.isSome_iff_exists] at h
  obtain ⟨u, hu⟩ := h
  simp only [Option.bind_eq_bind] at hu
  rw [Option.bind_eq_some] at hu
  obtain ⟨r1, h1, hu⟩ := hu
  have hl := dropPrefixCL_eq_some h1
  rw [Option.bind_eq_some] at hu
  obtain ⟨r3, h3, hu⟩ := hu
  have h2 := expectChar_eq_some h3
  rw [Option.bind_eq_some] at hu
  obtain ⟨r4, h4, _⟩ := hu
  have h2b := expectChar_eq_some h4
  refine ⟨r1.takeWhile (fun c => c = ' '), r4, ?_, ?_⟩
  · intro x hx
    have := List.mem_takeWhile_imp hx
    simpa using this
  · rw [hl, List.append_assoc]
    congr 1
    conv_lhs => rw [← List.takeWhile_append_dropWhile (fun c => decide (c = ' ')) r1]
    rw [show List.dropWhile (fun c => decide (c = ' ')) r1 = '(' :: r3 from h2]
    rw [h2b]

theorem command_pattern_not_q {c : Char} {t : List Char} (hc : c ≠ 'q') :
    command_pattern (c :: t) = false := by
  unfold command_pattern
  simp [expectChar, hc]

theorem alphabet_pattern_not_a {c : Char} {t : List Char} (hc : c ≠ 'a') :
    alphabet_pattern (c :: t) = false := by
  unfold alphabet_pattern
  have hd : dropPrefixCL ("alphabet:".toList) (c :: t) = none := by
    rw [show ("alphabet:".toList) = 'a' :: "lphabet:".toList from rfl]
    simp [dropPrefixCL, hc]
  simp only [Option.bind_eq_bind, hd, Option.none_bind, Option.isSome_none]

theorem alpha_not_command {l : List Char} (ha : alphabet_pattern l = true) :
    command_pattern l = false := by
  obtain ⟨sp, rest, _, rfl⟩ := alphabet_pattern_inv ha
  rw [show ("alphabet:".toList) ++ sp ++ '(' :: rest
      = 'a' :: ("lphabet:".toList ++ sp ++ '(' :: rest) from rfl]
  exact command_pattern_not_q (by decide)

theorem tape_not_command {l : List Char} (ht : tape_pattern l = true) :
    command_pattern l = false := by
  obtain ⟨sp, rest, _, rfl⟩ := tape_pattern_inv ht
  rw [show ("tape:".toList) ++ sp ++ '(' :: '*' :: rest
      = 't' :: ("ape:".toList ++ sp ++ '(' :: '*' :: rest) from rfl]
  exact command_pattern_not_q (by decide)

theorem tape_not_alpha {l : List Char} (ht : tape_pattern l = true) :
    alphabet_pattern l = false := by
  obtain ⟨sp, rest, _, rfl⟩ := tape_pattern_inv ht
  rw [show ("tape:".toList) ++ sp ++ '(' :: '*' :: rest
      = 't' :: ("ape:".toList ++ sp ++ '(' :: '*' :: rest) from rfl]
  exact alphabet_pattern_not_a (by decide)

/-- An alphabet-shaped line always contains a parenthesis, so the
set/sequence parser cannot panic on it. -/
theorem parse_alpha_isSome {l : List Char} (ha : alphabet_pattern l = true)
    (b : Bool) : ∃ u, parse_alphabet_or_tape l b = some u := by
  obtain ⟨sp, rest, hsp, rfl⟩ := alphabet_pattern_inv ha
  have hnp : '(' ∉ ("alphabet:".toList ++ sp) := by
    intro hm
    rcases List.mem_append.mp hm with hm1 | hm2
    · revert hm1; decide
    · exact absurd (hsp _ hm2) (by decide)
  unfold parse_alphabet_or_tape capturedContent
  rw [show ("alphabet:".toList) ++ sp ++ '(' :: rest
      = ("alphabet:".toList ++ sp) ++ '(' :: rest by simp]
  rw [splitAt2_double hnp]
  exact ⟨_, rfl⟩

/-- A tape-shaped line always contains a parenthesis, so the set/sequence
parser cannot panic on it. -/
theorem parse_tape_isSome {l : List Char} (ht : tape_pattern l = true)
    (b : Bool) : ∃ u, parse_alphabet_or_tape l b = some u := by
  obtain ⟨sp, rest, hsp, rfl⟩ := tape_pattern_inv ht
  have hnp : '(' ∉ ("tape:".toList ++ sp) := by
    intro hm
    rcases List.mem_append.mp hm with hm1 | hm2
    · revert hm1; decide
    · exact absurd (hsp _ hm2) (by decide)
  unfold parse_alphabet_or_tape capturedContent
  rw [show ("tape:".toList) ++ sp ++ '(' :: '*' :: rest
      = ("tape:".toList ++ sp) ++ '(' :: ('*' :: rest) by simp]
  rw [splitAt2_double hnp]
  exact ⟨_, rfl⟩

/-! ### Line-loop lemmas -/

theorem processLine_command {conf : TMachineConfiguration} {raw : List Char}
    (hc : command_pattern (trimList raw) = true) :
    processLine conf raw = (parse_command (trimList raw)).map
      (fun cmd => ⟨conf.commands ++ [cmd], conf.alphabet, conf.tape⟩) := by
  unfold processLine
  rw [if_pos hc]

theorem processLine_alpha {conf : TMachineConfiguration} {raw : List Char}
    (ha : alphabet_pattern (trimList raw) = true) :
    processLine conf raw = (parse_alphabet_or_tape (trimList raw) false).map
      (fun a => ⟨conf.commands, some a, conf.tape⟩) := by
  unfold processLine
  rw [if_neg (by simp [alpha_not_command ha]), if_pos ha]

theorem processLine_tape {conf : TMachineConfiguration} {raw : List Char}
    (ht : tape_pattern (trimList raw) = true) :
    processLine conf raw = (parse_alphabet_or_tape (trimList raw) true).map
      (fun t => ⟨conf.commands, conf.alphabet, some t⟩) := by
  unfold processLine
  rw [if_neg (by simp [tape_not_command ht]),
    if_neg (by simp [tape_not_alpha ht]), if_pos ht]

/-- A line that is not alphabet-shaped leaves the alphabet field unchanged. -/
theorem processLine_alpha_eq {conf conf2 : TMachineConfiguration}
    {raw : List Char} (ha : alphabet_pattern (trimList raw) = false)
    (h : processLine conf raw = some conf2) : conf2.alphabet = conf.alphabet := by
  unfold processLine at h
  by_cases hc : command_pattern (trimList raw) = true
  · rw [if_pos hc] at h
    obtain ⟨cmd, _, he⟩ := Option.map_eq_some'.mp h
    rw [← he]
  · rw [if_neg hc, if_neg (by simp [ha])] at h
    by_cases ht : tape_pattern (trimList raw) = true
    · rw [if_pos ht] at h
      obtain ⟨t, _, he⟩ := Option.map_eq_some'.mp h
      rw [← he]
    · rw [if_neg ht] at h
      cases h
      rfl

/-- A line that is not tape-shaped leaves the tape field unchanged. -/
theorem processLine_tape_eq {conf conf2 : TMachineConfiguration}
    {raw : List Char} (ht : tape_pattern (trimList raw) = false)
    (h : processLine conf raw = some conf2) : conf2.tape = conf.tape := by
  unfold processLine at h
  by_cases hc : command_pattern (trimList raw) = true
  · rw [if_pos hc] at h
    obtain ⟨cmd, _, he⟩ := Option.map_eq_some'.mp h
    rw [← he]
  · rw [if_neg hc] at h
    by_cases ha : alphabet_pattern (trimList raw) = true
    · rw [if_pos ha] at h
      obtain ⟨a, _, he⟩ := Option.map_eq_some'.mp h
      rw [← he]
    · rw [if_neg ha, if_neg (by simp [ht])] at h
      cases h
      rfl

theorem processLines_cons (conf : TMachineConfiguration) (a : List Char)
    (ls : List (List Char)) :
    processLines conf (a :: ls) = match processLine conf a with
      | none => none
      | some c2 => processLines c2 ls := rfl

theorem processLines_append (A B : List (List Char)) :
    ∀ conf : TMachineConfiguration, processLines conf (A ++ B) =
      match processLines conf A with
      | none => none
      | some c => processLines c B := by
  induction A with
  | nil => intro conf; rfl
  | cons a A ih =>
    intro conf
    rw [List.cons_append, processLines_cons, processLines_cons]
    cases hp : processLine conf a with
    | none => rfl
    | some c2 => exact ih c2

theorem processLines_alpha_preserved {ls : List (List Char)}
    (hna : ∀ l ∈ ls, alphabet_pattern (trimList l) = false) :
    ∀ {conf conf2 : TMachineConfiguration}, processLines conf ls = some conf2 →
      conf2.alphabet = conf.alphabet := by
  induction ls with
  | nil =>
    intro conf conf2 h
    cases h
    rfl
  | cons a ls ih =>
    intro conf conf2 h
    unfold processLines at h
    cases hp : processLine conf a with
    | none => rw [hp] at h; cases h
    | some cmid =>
      rw [hp] at h
      rw [ih (fun l hl => hna l (by simp [hl])) h]
      exact processLine_alpha_eq (hna a (by simp)) hp

theorem processLines_tape_preserved {ls : List (List Char)}
    (hnt : ∀ l ∈ ls, tape_pattern (trimList l) = false) :
    ∀ {conf conf2 : TMachineConfiguration}, processLines conf ls = some conf2 →
      conf2.tape = conf.tape := by
  induction ls with
  | nil =>
    intro conf conf2 h
    cases h
    rfl
  | cons a ls ih =>
    intro conf conf2 h
    unfold processLines at h
    cases hp : processLine conf a with
    | none => rw [hp] at h; cases h
    | some cmid =>
      rw [hp] at h
      rw [ih (fun l hl => hnt l (by simp [hl])) h]
      exact processLine_tape_eq (hnt a (by simp)) hp

theorem processLines_commands {ls : List (List Char)} :
    ∀ {conf conf2 : TMachineConfiguration}, processLines conf ls = some conf2 →
      conf2.commands = conf.commands ++ commandsOf ls := by
  induction ls with
  | nil =>
    intro conf conf2 h
    cases h
    simp [commandsOf]
  | cons raw ls ih =>
    intro conf conf2 h
    unfold processLines at h
    cases hp : processLine conf raw with
    | none => rw [hp] at h; cases h
    | some cmid =>
      rw [hp] at h
      have hmid := ih h
      by_cases hc : command_pattern (trimList raw) = true
      · rw [processLine_command hc] at hp
        obtain ⟨cmd, hcm, he⟩ := Option.map_eq_some'.mp hp
        have hco : commandsOf (raw :: ls) = cmd :: commandsOf ls := by
          unfold commandsOf
          rw [List.filterMap_cons]
          simp only [hc, if_true, hcm]
        rw [hco, hmid, ← he]
        simp
      · have hpres : cmid.commands = conf.commands := by
          unfold processLine at hp
          rw [if_neg hc] at hp
          by_cases ha : alphabet_pattern (trimList raw) = true
          · rw [if_pos ha] at hp
            obtain ⟨a, _, he⟩ := Option.map_eq_some'.mp hp
            rw [← he]
          · rw [if_neg ha] at hp
            by_cases ht : tape_pattern (trimList raw) = true
            · rw [if_pos ht] at hp
              obtain ⟨t, _, he⟩ := Option.map_eq_some'.mp hp
              rw [← he]
            · rw [if_neg ht] at hp
              cases hp
              rfl
        have hco : commandsOf (raw :: ls) = commandsOf ls := by
          unfold commandsOf
          rw [List.filterMap_cons]
          rw [Bool.not_eq_true] at hc
          simp [hc]
        rw [hco, hmid, hpres]

/-! ### Sorting and deduplication lemmas -/

theorem sortChars_perm (l : List Char) : (sortChars l).Perm l :=
  List.perm_insertionSort _ l

theorem sortChars_sorted (l : List Char) :
    List.Sorted (fun a b => a ≤ b) (sortChars l) :=
  List.sorted_insertionSort _ l

theorem dedupAdj_mem (a : Char) : ∀ l : List Char, a ∈ dedupAdj l ↔ a ∈ l := by
  intro l
  induction l with
  | nil => simp [dedupAdj]
  | cons x rest ih =>
    cases rest with
    | nil => simp [dedupAdj]
    | cons y rs =>
      by_cases hxy : x = y
      · subst hxy
        rw [show dedupAdj (x :: x :: rs) = dedupAdj (x :: rs) from by
          simp [dedupAdj]]
        rw [ih]
        simp
      · rw [show dedupAdj (x :: y :: rs) = x :: dedupAdj (y :: rs) from by
          simp [dedupAdj, hxy]]
        simp [List.mem_cons, ih]

theorem dedupAdj_sublist : ∀ l : List Char, (dedupAdj l).Sublist l := by
  intro l
  induction l with
  | nil => simp [dedupAdj]
  | cons x rest ih =>
    cases rest with
    | nil => simp [dedupAdj]
    | cons y rs =>
      by_cases hxy : x = y
      · subst hxy
        rw [show dedupAdj (x :: x :: rs) = dedupAdj (x :: rs) from by
          simp [dedupAdj]]
        exact ih.cons x
      · rw [show dedupAdj (x :: y :: rs) = x :: dedupAdj (y :: rs) from by
          simp [dedupAdj, hxy]]
        exact ih.cons₂ x

theorem dedupAdj_cons_head (y : Char) (rest : List Char) :
    ∃ t, dedupAdj (y :: rest) = y :: t := by
  induction rest generalizing y with
  | nil => exact ⟨[], rfl⟩
  | cons z rs ih =>
    by_cases hz : y = z
    · subst hz
      obtain ⟨t, ht⟩ := ih y
      exact ⟨t, by simp [dedupAdj, ht]⟩
    · exact ⟨dedupAdj (z :: rs), by simp [dedupAdj, hz]⟩

theorem dedupAdj_chain_ne : ∀ l : List Char,
    List.Chain' (fun a b => a ≠ b) (dedupAdj l) := by
  intro l
  induction l with
  | nil => simp [dedupAdj]
  | cons x rest ih =>
    cases rest with
    | nil => simp [dedupAdj]
    | cons y rs =>
      by_cases hxy : x = y
      · subst hxy
        rw [show dedupAdj (x :: x :: rs) = dedupAdj (x :: rs) from by
          simp [dedupAdj]]
        exact ih
      · rw [show dedupAdj (x :: y :: rs) = x :: dedupAdj (y :: rs) from by
          simp [dedupAdj, hxy]]
        obtain ⟨t, ht⟩ := dedupAdj_cons_head y rs
        rw [ht]
        rw [ht] at ih
        exact List.chain'_cons.mpr ⟨hxy, ih⟩

theorem dedupAdj_eq_self : ∀ {l : List Char},
    List.Chain' (fun a b => a ≠ b) l → dedupAdj l = l := by
  intro l
  induction l with
  | nil => intro _; rfl
  | cons x rest ih =>
    cases rest with
    | nil => intro _; rfl
    | cons y rs =>
      intro h
      rw [List.chain'_cons] at h
      rw [show dedupAdj (x :: y :: rs) = x :: dedupAdj (y :: rs) from by
        simp [dedupAdj, h.1]]
      rw [ih h.2]

theorem chain'_lt_of_le_ne : ∀ {l : List Char},
    List.Chain' (fun a b => a ≤ b) l → List.Chain' (fun a b => a ≠ b) l →
    List.Chain' (fun a b => a < b) l := by
  intro l
  induction l with
  | nil => intro _ _; simp
  | cons x rest ih =>
    cases rest with
    | nil => intro _ _; simp
    | cons y rs =>
      intro h1 h2
      rw [List.chain'_cons] at h1 h2 ⊢
      exact ⟨lt_of_le_of_ne h1.1 h2.1, ih h1.2 h2.2⟩

theorem dedup_sort_sorted_lt (u : List Char) :
    List.Sorted (fun a b => a < b) (dedupAdj (sortChars u)) := by
  have hs : List.Sorted (fun a b => a ≤ b) (dedupAdj (sortChars u)) :=
    List.Pairwise.sublist (dedupAdj_sublist _) (sortChars_sorted u)
  have hchain := chain'_lt_of_le_ne hs.chain' (dedupAdj_chain_ne (sortChars u))
  exact List.chain'_iff_pairwise.mp hchain

theorem dedup_sort_mem (u : List Char) (c : Char) :
    c ∈ dedupAdj (sortChars u) ↔ c ∈ u := by
  rw [dedupAdj_mem]
  exact (sortChars_perm u).mem_iff

theorem sortChars_perm_eq {u v : List Char} (h : u.Perm v) :
    sortChars u = sortChars v := by
  refine List.eq_of_perm_of_sorted ?_ (sortChars_sorted u) (sortChars_sorted v)
  exact (sortChars_perm u).trans (h.trans (sortChars_perm v).symm)

theorem sortChars_eq_self {l : List Char}
    (h : List.Sorted (fun a b => a ≤ b) l) : sortChars l = l :=
  List.eq_of_perm_of_sorted (sortChars_perm l) (sortChars_sorted l) h

theorem alphaNormalize_idem (u : List Char) :
    dedupAdj (sortChars (dedupAdj (sortChars u))) = dedupAdj (sortChars u) := by
  rw [sortChars_eq_self (List.Pairwise.sublist (dedupAdj_sublist _)
    (sortChars_sorted u))]
  exact dedupAdj_eq_self (dedupAdj_chain_ne (sortChars u))

/-! ### Capture lemmas -/

theorem capturedContent_wrap {pre C : List Char} (hpre : '(' ∉ pre)
    (hC : '(' ∉ C) (hlast : C.getLast? ≠ some ')') :
    capturedContent (pre ++ '(' :: (C ++ [')'])) = some C := by
  unfold capturedContent
  have hB : '(' ∉ C ++ [')'] := by
    intro hm
    rcases List.mem_append.mp hm with hm1 | hm2
    · exact hC hm1
    · exact absurd (List.mem_singleton.mp hm2) (by decide)
  rw [splitAt2_single hpre hB]
  simp only [Option.map_some', Option.some.injEq]
  rw [rtrim_concat, rtrim_no_trailing hlast]

/-! ### decodeMove lemmas -/

theorem decodeMove_cases (c : Char) :
    decodeMove c = "Right" ∨ decodeMove c = "Left" ∨ decodeMove c = "Stop" := by
  unfold decodeMove
  split <;> simp

theorem decodeMove_default {c : Char} (h1 : c ≠ 'R') (h2 : c ≠ 'L')
    (h3 : c ≠ 'S') : decodeMove c = "Stop" := by
  unfold decodeMove
  split <;> simp_all

/-- The move string of any successfully parsed command is the decoding of
the character the move match examined. -/
theorem parse_command_aux_move {line : List Char} {cmd : Command} {mc : Char}
    (h : parse_command_aux line = some (cmd, mc)) :
    cmd.next_move = decodeMove mc := by
  unfold parse_command_aux at h
  simp only [Option.bind_eq_bind] at h
  rw [Option.bind_eq_some] at h
  obtain ⟨parts, _, h⟩ := h
  rw [Option.bind_eq_some] at h
  obtain ⟨state_num, _, h⟩ := h
  rw [Option.bind_eq_some] at h
  obtain ⟨lsym, _, h⟩ := h
  rw [Option.bind_eq_some] at h
  obtain ⟨symbol, _, h⟩ := h
  rw [Option.bind_eq_some] at h
  obtain ⟨new_state_num, _, h⟩ := h
  rw [Option.bind_eq_some] at h
  obtain ⟨rsym, _, h⟩ := h
  rw [Option.bind_eq_some] at h
  obtain ⟨new_symbol, _, h⟩ := h
  rw [Option.bind_eq_some] at h
  obtain ⟨smtail, _, h⟩ := h
  rw [Option.bind_eq_some] at h
  obtain ⟨move_char, _, h⟩ := h
  simp only [Option.some.injEq, Prod.mk.injEq, pure] at h
  obtain ⟨hcmd, hmc⟩ := h
  rw [← hcmd, ← hmc]

/-! ### Claim theorems -/

/-- C1 counterexample: the line `q1(() -> q1(b)R` has the claimed form
`q<S>(<r>) -> q<N>(<w>)<M>` with S=1, r='(', N=1, w=b, M=R, but the
transition parser panics (returns none in the model) instead of returning
the rule with reading_char '('. -/
theorem C1_counterexample : parse_command ("q1(() -> q1(b)R".toList) = none := by
  decide

/-- C1 (amended): for a line `q<S>(<r>) -> q<N>(<w>)<M>` whose digit runs S
and N are nonempty with values below 2^64 and whose symbols r, w and move
letter M are not parentheses (M also not whitespace), the transition parser
returns the rule with state S, next_state N, reading_char r, place_char w
and next_move decode(M), where decode maps R to Right, L to Left, S to
Stop, and any other character to Stop. -/
theorem C1_transition_parse {S N : List Char} {r w M : Char}
    (hS : ∀ c ∈ S, c.isDigit = true) (hN : ∀ c ∈ N, c.isDigit = true)
    (hSne : S ≠ []) (hNne : N ≠ [])
    (hSv : digitsVal S < 2 ^ 64) (hNv : digitsVal N < 2 ^ 64)
    (hr1 : r ≠ '(') (hr2 : r ≠ ')') (hw1 : w ≠ '(') (hw2 : w ≠ ')')
    (hM1 : M ≠ '(') (hM2 : M ≠ ')') (hM3 : isWS M = false) :
    parse_command (renderLine S r N w M) =
      some ⟨digitsVal S, digitsVal N, r, w, decodeMove M⟩ ∧
    decodeMove 'R' = "Right" ∧ decodeMove 'L' = "Left" ∧
    decodeMove 'S' = "Stop" ∧
    (M ≠ 'R' → M ≠ 'L' → M ≠ 'S' → decodeMove M = "Stop") := by
  refine ⟨?_, rfl, rfl, rfl, fun h1 h2 h3 => decodeMove_default h1 h2 h3⟩
  unfold parse_command
  rw [parse_command_aux_render hS hN hSne hNne hSv hNv hr1 hr2 hw1 hw2
    hM1 hM2 hM3]
  rfl

/-- Witness for C1 at the concrete line q0(a) -> q1(b)R. -/
theorem C1_transition_parse_witness :
    (∀ c ∈ ['0'], c.isDigit = true) ∧ digitsVal ['0'] < 2 ^ 64 ∧
    parse_command (renderLine ['0'] 'a' ['1'] 'b' 'R') =
      some ⟨digitsVal ['0'], digitsVal ['1'], 'a', 'b', decodeMove 'R'⟩ :=
  ⟨by decide, by decide,
    (C1_transition_parse (by decide) (by decide) (by decide) (by decide)
      (by decide) (by decide) (by decide) (by decide) (by decide) (by decide)
      (by decide) (by decide) (by decide)).1⟩

/-- C2: in alphabet mode the set/sequence parser returns the captured
content sorted by the character order with all duplicates removed; the
normalization is order-independent and idempotent, and parsing
`alphabet: (badcab)` equals parsing `alphabet: (abcd)`, namely abcd. -/
theorem C2_alphabet_normalization :
    (∀ line u, capturedContent line = some u →
      parse_alphabet_or_tape line false = some (dedupAdj (sortChars u))) ∧
    (∀ u : List Char,
      List.Sorted (fun a b => a < b) (dedupAdj (sortChars u)) ∧
      ∀ c : Char, c ∈ dedupAdj (sortChars u) ↔ c ∈ u) ∧
    (∀ u v : List Char, u.Perm v →
      dedupAdj (sortChars u) = dedupAdj (sortChars v)) ∧
    (∀ u : List Char,
      dedupAdj (sortChars (dedupAdj (sortChars u))) = dedupAdj (sortChars u)) ∧
    (parse_alphabet_or_tape ("alphabet: (badcab)".toList) false =
       parse_alphabet_or_tape ("alphabet: (abcd)".toList) false ∧
     parse_alphabet_or_tape ("alphabet: (badcab)".toList) false =
       some ("abcd".toList)) := by
  refine ⟨?_, ?_, ?_, alphaNormalize_idem, by decide, by decide⟩
  · intro line u h
    unfold parse_alphabet_or_tape
    rw [h]
    rfl
  · exact fun u => ⟨dedup_sort_sorted_lt u, dedup_sort_mem u⟩
  · intro u v h
    rw [sortChars_perm_eq h]

/-- Witness for C2: order-independence applied to the permutation ba ~ ab. -/
theorem C2_alphabet_normalization_witness :
    ("ba".toList).Perm ("ab".toList) ∧
    dedupAdj (sortChars ("ba".toList)) = dedupAdj (sortChars ("ab".toList)) :=
  ⟨by decide, C2_alphabet_normalization.2.2.1 _ _ (by decide)⟩

/-- C3: in tape mode the set/sequence parser returns the captured content
verbatim, order and duplicates preserved, with the leading star marker
retained; `tape: (*aab)` yields *aab. -/
theorem C3_tape_verbatim :
    (∀ line u, capturedContent line = some u →
      parse_alphabet_or_tape line true = some u) ∧
    (∀ s : List Char, '(' ∉ s → s.getLast? ≠ some ')' →
      parse_alphabet_or_tape (("tape: (*".toList) ++ s ++ [')']) true =
        some ('*' :: s)) ∧
    parse_alphabet_or_tape ("tape: (*aab)".toList) true =
      some ("*aab".toList) := by
  refine ⟨?_, ?_, by decide⟩
  · intro line u h
    unfold parse_alphabet_or_tape
    rw [h]
    rfl
  · intro s h1 h2
    have hC : '(' ∉ '*' :: s := by
      intro hm
      rcases List.mem_cons.mp hm with he | hm2
      · exact absurd he (by decide)
      · exact h1 hm2
    have hl : ('*' :: s).getLast? ≠ some ')' := by
      cases s with
      | nil => decide
      | cons a t =>
        rw [List.getLast?_cons_cons]
        exact h2
    rw [show ("tape: (*".toList) ++ s ++ [')']
        = ("tape: ".toList) ++ '(' :: (('*' :: s) ++ [')']) by simp]
    unfold parse_alphabet_or_tape
    rw [capturedContent_wrap (by decide) hC hl]
    rfl

/-- Witness for C3 at the tape content ba*b. -/
theorem C3_tape_verbatim_witness :
    '(' ∉ ("ba*b".toList) ∧
    parse_alphabet_or_tape (("tape: (*".toList) ++ "ba*b".toList ++ [')']) true =
      some ('*' :: "ba*b".toList) :=
  ⟨by decide, (C3_tape_verbatim).2.1 _ (by decide) (by decide)⟩

/-- C4 counterexample: for the content C = `a(b` (which contains an opening
parenthesis) the line `alphabet: (a(b)` captures only `a`, not C. -/
theorem C4_counterexample :
    capturedContent ("alphabet: (a(b)".toList) = some ("a".toList) ∧
    capturedContent ("alphabet: (a(b)".toList) ≠ some ("a(b".toList) := by
  constructor
  · decide
  · decide

/-- C4 (amended): the capture is the run between the first opening
parenthesis and the next opening parenthesis (or the end of the line) with
all trailing closing parentheses stripped; it equals the declared content C
exactly when C contains no opening parenthesis and does not end with a
closing one. -/
theorem C4_alphabet_capture {C : List Char} (h1 : '(' ∉ C)
    (h2 : C.getLast? ≠ some ')') :
    capturedContent (("alphabet: (".toList) ++ C ++ [')']) = some C := by
  rw [show ("alphabet: (".toList) ++ C ++ [')']
      = ("alphabet: ".toList) ++ '(' :: (C ++ [')']) by simp]
  exact capturedContent_wrap (by decide) h1 h2

/-- Witness for C4 at the content xy. -/
theorem C4_alphabet_capture_witness :
    '(' ∉ ("xy".toList) ∧ ("xy".toList).getLast? ≠ some ')' ∧
    capturedContent (("alphabet: (".toList) ++ "xy".toList ++ [')']) =
      some ("xy".toList) :=
  ⟨by decide, by decide, C4_alphabet_capture (by decide) (by decide)⟩

/-- C5 counterexample: on the input `q(a) -> q1(b)R` (empty numeric prefix)
the transition parser panics — modelled as returning none — rather than
returning a rule or surfacing a recoverable ParseError value. -/
theorem C5_counterexample : parse_command ("q(a) -> q1(b)R".toList) = none := by
  decide

/-- C5 (amended): when the numeric prefix of either half of a transition
line does not parse as a usize, `parse_command` panics (the `unwrap` on
the ParseIntError), modelled as returning none.  No error value is
surfaced: the function's return type has no error channel. -/
theorem C5_parse_panic :
    (∀ line p0 p1 : List Char, arrowParts line = some (p0, p1) →
      parseUsize (trimList (splitAt2 '('
        ((trimList p0).dropWhile (fun c => c = 'q'))).1) = none →
      parse_command line = none) ∧
    (∀ line p0 p1 : List Char, arrowParts line = some (p0, p1) →
      parseUsize (trimList (splitAt2 '('
        ((trimList p1).dropWhile (fun c => c = 'q'))).1) = none →
      parse_command line = none) := by
  constructor
  · intro line p0 p1 h1 h2
    unfold parse_command
    rw [aux_state_none h1 h2]
    rfl
  · intro line p0 p1 h1 h2
    unfold parse_command
    rw [aux_right_prefix_none h1 h2]
    rfl

/-- Witness for C5: a left-half failure q(a) -> q1(b)R and a right-half
failure q1(a) -> q(b)R both end in a panic. -/
theorem C5_parse_panic_witness :
    arrowParts ("q(a) -> q1(b)R".toList) =
      some ("q(a) ".toList, " q1(b)R".toList) ∧
    parse_command ("q(a) -> q1(b)R".toList) = none ∧
    arrowParts ("q1(a) -> q(b)R".toList) =
      some ("q1(a) ".toList, " q(b)R".toList) ∧
    parse_command ("q1(a) -> q(b)R".toList) = none :=
  ⟨by decide,
   C5_parse_panic.1 ("q(a) -> q1(b)R".toList) ("q(a) ".toList)
     (" q1(b)R".toList) (by decide) (by decide),
   by decide,
   C5_parse_panic.2 ("q1(a) -> q(b)R".toList) ("q1(a) ".toList)
     (" q(b)R".toList) (by decide) (by decide)⟩

/-- C6 counterexample: the line `q0(a)->q1(b)R` — the transition shape with
no whitespace around the arrow — is rejected by the classifier, refuting
the claim that any amount of whitespace (including none) is allowed. -/
theorem C6_counterexample :
    command_pattern ("q0(a)->q1(b)R".toList) = false := by decide

/-- C6 (amended): the classifier accepts the transition shape with exactly
one space on each side of the arrow; zero spaces or two spaces around the
arrow are rejected. -/
theorem C6_classifier_spacing :
    (∀ S N : List Char, ∀ r w M : Char,
      (∀ c ∈ S, c.isDigit = true) → (∀ c ∈ N, c.isDigit = true) →
      S ≠ [] → N ≠ [] → r ≠ '\n' → w ≠ '\n' →
      (M = 'R' ∨ M = 'L' ∨ M = 'S') →
      command_pattern (renderLine S r N w M) = true) ∧
    command_pattern ("q0(a)->q1(b)R".toList) = false ∧
    command_pattern ("q0(a)  ->  q1(b)R".toList) = false := by
  refine ⟨?_, by decide, by decide⟩
  intro S N r w M hS hN hSne hNne hr hw hM
  exact command_pattern_render hS hN hSne hNne hr hw hM

/-- Witness for C6 at the line q0(a) -> q1(b)R. -/
theorem C6_classifier_spacing_witness :
    command_pattern (renderLine ("0".toList) 'a' ("1".toList) 'b' 'R') = true :=
  C6_classifier_spacing.1 _ _ _ _ _ (by decide) (by decide) (by decide)
    (by decide) (by decide) (by decide) (by decide)

/-- C7: when a final configuration exists, its alphabet is the parse of the
last alphabet-shaped line (earlier ones are overwritten), and its tape is
the parse of the last tape-shaped line. -/
theorem C7_last_wins :
    (∀ pre post aline conf,
      alphabet_pattern (trimList aline) = true →
      (∀ l ∈ post, alphabet_pattern (trimList l) = false) →
      processLines initialConf (pre ++ aline :: post) = some conf →
      conf.alphabet = parse_alphabet_or_tape (trimList aline) false) ∧
    (∀ pre post tline conf,
      tape_pattern (trimList tline) = true →
      (∀ l ∈ post, tape_pattern (trimList l) = false) →
      processLines initialConf (pre ++ tline :: post) = some conf →
      conf.tape = parse_alphabet_or_tape (trimList tline) true) := by
  constructor
  · intro pre post aline conf ha hpost h
    rw [processLines_append] at h
    cases hpre : processLines initialConf pre with
    | none => rw [hpre] at h; simp at h
    | some c1 =>
      rw [hpre] at h
      simp only [] at h
      rw [processLines_cons] at h
      cases hp : processLine c1 aline with
      | none => rw [hp] at h; simp at h
      | some c2 =>
        rw [hp] at h
        simp only [] at h
        rw [processLines_alpha_preserved hpost h]
        rw [processLine_alpha ha] at hp
        obtain ⟨a, hpa, he⟩ := Option.map_eq_some'.mp hp
        rw [← he, hpa]
  · intro pre post tline conf ht hpost h
    rw [processLines_append] at h
    cases hpre : processLines initialConf pre with
    | none => rw [hpre] at h; simp at h
    | some c1 =>
      rw [hpre] at h
      simp only [] at h
      rw [processLines_cons] at h
      cases hp : processLine c1 tline with
      | none => rw [hp] at h; simp at h
      | some c2 =>
        rw [hp] at h
        simp only [] at h
        rw [processLines_tape_preserved hpost h]
        rw [processLine_tape ht] at hp
        obtain ⟨t, hpt, he⟩ := Option.map_eq_some'.mp hp
        rw [← he, hpt]

/-- Witness for C7: two alphabet lines, the second (zz then ab) wins. -/
theorem C7_last_wins_witness :
    processLines initialConf
      [("alphabet: (zz)".toList), ("alphabet: (ab)".toList)] =
      some ⟨[], some ("ab".toList), none⟩ ∧
    (⟨[], some ("ab".toList), none⟩ : TMachineConfiguration).alphabet =
      parse_alphabet_or_tape (trimList ("alphabet: (ab)".toList)) false :=
  ⟨by decide, C7_last_wins.1 [("alphabet: (zz)".toList)] []
    ("alphabet: (ab)".toList) ⟨[], some ("ab".toList), none⟩
    (by decide) (by simp) (by decide)⟩

/-- C8: the final command sequence is exactly one parsed rule per line the
classifier accepts as a transition, in input order, with no deduplication
and no conflict detection. -/
theorem C8_rule_accumulation :
    ∀ lines conf, processLines initialConf lines = some conf →
      conf.commands = commandsOf lines := by
  intro lines conf h
  have hc := processLines_commands h
  simpa [initialConf] using hc

/-- Witness for C8: two identical transition lines produce two entries. -/
theorem C8_rule_accumulation_witness :
    processLines initialConf
      [("q0(a) -> q1(b)R".toList), ("q0(a) -> q1(b)R".toList)] =
      some ⟨[⟨0, 1, 'a', 'b', "Right"⟩, ⟨0, 1, 'a', 'b', "Right"⟩],
        none, none⟩ ∧
    (⟨[⟨0, 1, 'a', 'b', "Right"⟩, ⟨0, 1, 'a', 'b', "Right"⟩], none, none⟩ :
      TMachineConfiguration).commands =
      commandsOf [("q0(a) -> q1(b)R".toList), ("q0(a) -> q1(b)R".toList)] :=
  ⟨by decide, C8_rule_accumulation _ _ (by decide)⟩

/-- C9: with the alphabet unset the pipeline ends in the missing-alphabet
failure (checked first, before the tape check); with only the tape unset it
ends in the missing-tape failure; output is produced only when both are
set.  Each failure is a distinct outcome and produces no output. -/
theorem C9_missing_fields :
    ∀ lines conf, processLines initialConf lines = some conf →
      ((conf.alphabet = none → runMain lines = MainResult.missingAlphabet) ∧
       (conf.alphabet ≠ none → conf.tape = none →
         runMain lines = MainResult.missingTape) ∧
       (conf.alphabet ≠ none → conf.tape ≠ none →
         runMain lines = MainResult.output conf)) := by
  intro lines conf h
  unfold runMain
  rw [h]
  simp only []
  refine ⟨fun ha => ?_, fun ha ht => ?_, fun ha ht => ?_⟩
  · rw [if_pos (by simp [ha])]
  · rw [if_neg (by simpa [Option.isNone_iff_eq_none] using ha),
      if_pos (by simp [ht])]
  · rw [if_neg (by simpa [Option.isNone_iff_eq_none] using ha),
      if_neg (by simpa [Option.isNone_iff_eq_none] using ht)]

/-- Witness for C9: the empty input has no alphabet, so the run ends in the
missing-alphabet failure. -/
theorem C9_missing_fields_witness :
    processLines initialConf [] = some initialConf ∧
    runMain [] = MainResult.missingAlphabet :=
  ⟨rfl, (C9_missing_fields [] initialConf rfl).1 rfl⟩

/-- C10: every rule in a final configuration has next_move equal to Right,
Left or Stop; and on any classifier-accepted line, the character the move
match examines is the regex's final letter R, L or S, so the catch-all
Stop fallback arm is unreachable through the classifier. -/
theorem C10_move_strings :
    (∀ lines conf, processLines initialConf lines = some conf →
      ∀ cmd ∈ conf.commands, cmd.next_move = "Right" ∨
        cmd.next_move = "Left" ∨ cmd.next_move = "Stop") ∧
    (∀ line cmd mc, command_pattern line = true →
      parse_command_aux line = some (cmd, mc) →
      (mc = 'R' ∨ mc = 'L' ∨ mc = 'S')) := by
  constructor
  · intro lines conf h cmd hmem
    have hc := processLines_commands h
    rw [hc] at hmem
    simp only [initialConf, List.nil_append] at hmem
    rw [commandsOf, List.mem_filterMap] at hmem
    obtain ⟨raw, _, hf⟩ := hmem
    by_cases hcp : command_pattern (trimList raw) = true
    · rw [if_pos hcp] at hf
      unfold parse_command at hf
      obtain ⟨⟨cmd0, mc⟩, haux, he⟩ := Option.map_eq_some'.mp hf
      have hmv := parse_command_aux_move haux
      rw [← he]
      simpa [hmv] using decodeMove_cases mc
    · rw [if_neg hcp] at hf
      cases hf
  · intro line cmd mc hcp haux
    obtain ⟨S, r, N, w, M, rfl, hSne, hNne, hS, hN, hr, hw, hM⟩ :=
      command_pattern_inv hcp
    have hM1 : M ≠ '(' := by rcases hM with rfl | rfl | rfl <;> decide
    have hM2 : M ≠ ')' := by rcases hM with rfl | rfl | rfl <;> decide
    have hM3 : isWS M = false := by rcases hM with rfl | rfl | rfl <;> decide
    by_cases hr1 : r = '(' ∨ r = ')'
    · rw [aux_render_r_paren hS hN hr1] at haux
      cases haux
    push_neg at hr1
    by_cases hw1 : w = '(' ∨ w = ')'
    · rw [aux_render_w_paren hS hN hr1.1 hr1.2 hw1 hM1 hM3] at haux
      cases haux
    push_neg at hw1
    by_cases hSv : digitsVal S < 2 ^ 64
    · by_cases hNv : digitsVal N < 2 ^ 64
      · rw [parse_command_aux_render hS hN hSne hNne hSv hNv hr1.1 hr1.2
          hw1.1 hw1.2 hM1 hM2 hM3] at haux
        have hpair := Option.some.inj haux
        rw [Prod.mk.injEq] at hpair
        rw [← hpair.2]
        exact hM
      · have hfail : parseUsize (trimList N) = none := by
          rw [trimList_no_ws (fun c hc => digit_not_ws (hN c hc))]
          rw [parseUsize_digits hN hNne, if_neg hNv]
        rw [aux_render_right_state_none hS hN hr1.1 hr1.2 hw1.1 hM1 hM3
          hfail] at haux
        cases haux
    · have hfail : parseUsize (trimList S) = none := by
        rw [trimList_no_ws (fun c hc => digit_not_ws (hS c hc))]
        rw [parseUsize_digits hS hSne, if_neg hSv]
      have h1 := arrowParts_render hS hN r w M
      have h2 : parseUsize (trimList (splitAt2 '('
          ((trimList ('q' :: S ++ ['(', r, ')', ' '])).dropWhile
            (fun c => c = 'q'))).1) = none := by
        rw [left_part_render hS r, splitLeft_render hS hr1.1]
        exact hfail
      rw [aux_state_none h1 h2] at haux
      cases haux

/-- Witness for C10 at the line q0(a) -> q1(b)R. -/
theorem C10_move_strings_witness :
    command_pattern ("q0(a) -> q1(b)R".toList) = true ∧
    parse_command_aux ("q0(a) -> q1(b)R".toList) =
      some (⟨0, 1, 'a', 'b', "Right"⟩, 'R') ∧
    ('R' = 'R' ∨ 'R' = 'L' ∨ 'R' = 'S') :=
  ⟨by decide, by decide,
    C10_move_strings.2 ("q0(a) -> q1(b)R".toList) ⟨0, 1, 'a', 'b', "Right"⟩
      'R' (by decide) (by decide)⟩
